import Mathlib

/-
Verification of the Speech Delivery Metrics Engine of
freddie-garnett-dix/speech-metrics-app (src/streamlit_app.py).

The embedding translates the analysis functions of the source:
  * tokenise_words / count_fillers  (transcript text analysis),
  * analyse_pauses_from_wav_bytes   (windowed RMS pause detection),
  * the inline words-per-minute computation,
into executable Lean definitions.  Python floats are modelled by exact
rationals (ℚ); a Python runtime fault (ZeroDivisionError) is modelled by
the error side of an Except value.
-/

namespace SpeechMetrics

/-- Runtime faults the modelled Python code can raise. -/
inductive PyError where
  | zeroDivision
deriving DecidableEq, Repr

/-- Equality of modelled results is decidable, so concrete analysis runs
can be evaluated inside proofs. -/
instance exceptDecEq {α β : Type} [DecidableEq α] [DecidableEq β] :
    DecidableEq (Except α β) := fun x y =>
  match x, y with
  | .ok a, .ok b =>
    if h : a = b then .isTrue (by rw [h]) else .isFalse (by simp [h])
  | .error a, .error b =>
    if h : a = b then .isTrue (by rw [h]) else .isFalse (by simp [h])
  | .ok _, .error _ => .isFalse (by simp)
  | .error _, .ok _ => .isFalse (by simp)

/-- The single-word filler list `FILLER_WORDS` of the source. -/
def FILLER_WORDS : List String :=
  ["um", "uh", "er", "ah", "like", "basically", "actually", "literally", "right"]

/-- The multi-word filler list `FILLER_PHRASES` of the source. -/
def FILLER_PHRASES : List String :=
  ["you know", "sort of", "kind of"]

/-- A character matched by the token pattern of `tokenise_words`:
a lowercase ASCII letter or an apostrophe (character code 39). -/
def isTokenChar (c : Char) : Bool :=
  (decide ('a' ≤ c) && decide (c ≤ 'z')) || decide (c = Char.ofNat 39)

/-- Accumulating scanner extracting the maximal runs of token characters,
modelling the regex scan of `tokenise_words`.  The first argument
is the reversed run currently being read. -/
def tokeniseChars : List Char → List Char → List String
  | acc, [] => if acc.isEmpty then [] else [String.mk acc.reverse]
  | acc, c :: rest =>
    if isTokenChar c then tokeniseChars (c :: acc) rest
    else if acc.isEmpty then tokeniseChars [] rest
    else String.mk acc.reverse :: tokeniseChars [] rest

/-- `tokenise_words` of the source: lowercase the text, then extract the
maximal runs matching the character class of lowercase letters and
apostrophes. -/
def tokenise_words (text : String) : List String :=
  tokeniseChars [] (text.data.map Char.toLower)

/-- A word character in the sense of the regex word-boundary anchor
(ASCII letters, digits, underscore). -/
def isBWordChar (c : Char) : Bool :=
  c.isAlphanum || decide (c = Char.ofNat 95)

/-- Whether a word boundary lies between a left neighbour character and a
right neighbour character (absent neighbours count as non-word). -/
def boundaryBetween (l r : Option Char) : Bool :=
  (match l with | none => false | some c => isBWordChar c)
    != (match r with | none => false | some c => isBWordChar c)

/-- Literal character-by-character prefix test used by the phrase match. -/
def matchesAt : List Char → List Char → Bool
  | [], _ => true
  | _ :: _, [] => false
  | a :: ps, b :: ts => decide (a = b) && matchesAt ps ts

/-- Whether the boundary-anchored literal pattern `p` matches at the
current scan position of the text: a word boundary between the previous
character and the text head, the literal characters of `p`, and a word
boundary after the matched characters. -/
def phraseMatchAt (p : List Char) (prev : Option Char) (t : List Char) : Bool :=
  boundaryBetween prev t.head? && matchesAt p t
    && boundaryBetween p.getLast? (t.drop p.length).head?

/-- Fuelled scanner for the boundary-anchored occurrence count: at every
step it either counts a match and resumes after it, or advances one
character.  A nonempty pattern consumes at least one text character per
step, so a fuel of one more than the text length suffices; an empty
pattern never arises from the source phrase lists and yields 0. -/
def countPhraseGo : Nat → List Char → Option Char → List Char → Nat
  | 0, _, _, _ => 0
  | _, [], _, _ => 0
  | fuel + 1, a :: ps, prev, t =>
    if phraseMatchAt (a :: ps) prev t then
      1 + countPhraseGo fuel (a :: ps) (a :: ps).getLast? (t.drop (a :: ps).length)
    else
      match t with
      | [] => 0
      | c :: rest => countPhraseGo fuel (a :: ps) (some c) rest

/-- Left-to-right non-overlapping count of boundary-anchored occurrences of
the literal pattern `p` in the text, modelling the regex findall of
`count_fillers` on an escaped phrase wrapped in boundary anchors.
`prev` is the character just before the current scan position. -/
def countPhrase (p : List Char) (prev : Option Char) (t : List Char) : Nat :=
  countPhraseGo (t.length + 1) p prev t

/-- `count_fillers` of the source: lowercases the text, tokenises it,
counts tokens belonging to the single-word filler list, adds the
boundary-anchored occurrence count of every filler phrase, and derives
the filler percentage (0 when there are no tokens).
Returns (total_words, filler_count, filler_pct). -/
def count_fillers (text : String) : Nat × Nat × ℚ :=
  let t : List Char := text.data.map Char.toLower
  let words := tokeniseChars [] (t.map Char.toLower)
  let total_words := words.length
  let singles := words.countP (fun w => FILLER_WORDS.contains w)
  let phrases := (FILLER_PHRASES.map (fun p => countPhrase p.data none t)).sum
  let filler_count := singles + phrases
  let filler_pct : ℚ :=
    if total_words ≠ 0 then (filler_count : ℚ) / (total_words : ℚ) * 100 else 0
  (total_words, filler_count, filler_pct)

/-- Fuelled chunking step: take one window of `max 1 k` frames and
continue on the rest.  Every step consumes at least one frame, so a fuel
of one more than the sample count suffices. -/
def chunksGo : Nat → Nat → List Int → List (List Int)
  | 0, _, _ => []
  | fuel + 1, k, xs =>
    if xs = [] then []
    else xs.take (max 1 k) :: chunksGo fuel k (xs.drop (max 1 k))

/-- Chunking of the sample stream into analysis windows, modelling the
readframes loop: each iteration takes `frames_per_window` frames (at
least one, as the source clamps the window size), and the last window
may be shorter. -/
def chunks (k : Nat) (xs : List Int) : List (List Int) :=
  chunksGo (xs.length + 1) k xs

/-- RMS energy of a window, modelling audioop.rms: the integer square
root of the mean of the squared samples. -/
def rms (win : List Int) : Nat :=
  Nat.sqrt ((win.map (fun x => (x * x).toNat)).sum / win.length)

/-- Frames per analysis window: `int(framerate * (window_ms / 1000.0))`,
replaced by 1 when non-positive (source lines 69-71). -/
def framesPerWindow (framerate : Nat) (window_ms : Int) : Nat :=
  (max 1 (Int.tdiv ((framerate : Int) * window_ms) 1000)).toNat

/-- Window count of a pause threshold: `max(1, int(ms / window_ms))`
(source lines 91-92).  Division by a zero window duration is handled by
the caller, which models the ZeroDivisionError of the source. -/
def minWindowsOf (ms window_ms : Int) : Nat :=
  (max 1 (Int.tdiv ms window_ms)).toNat

/-- The per-window silence classification of the source: the RMS of each
window compared against the silence threshold. -/
def silentWindowsOf (samples : List Int) (framerate : Nat)
    (window_ms thr : Int) : List Bool :=
  (chunks (framesPerWindow framerate window_ms) samples).map
    (fun win => decide ((rms win : Int) < thr))

/-- One iteration of the pause-merging loop (source lines 98-107).  The
accumulator is (pause_s, long_pause_count, run). -/
def scanStep (minW longW : Nat) (s : ℚ) (acc : ℚ × Nat × Nat) (w : Bool) :
    ℚ × Nat × Nat :=
  if w then (acc.1, acc.2.1, acc.2.2 + 1)
  else if minW ≤ acc.2.2 then
    (acc.1 + (acc.2.2 : ℚ) * s,
     if longW ≤ acc.2.2 then acc.2.1 + 1 else acc.2.1, 0)
  else (acc.1, acc.2.1, 0)

/-- The pause-merging loop of the source: folds over the silence flags
followed by the sentinel `false` that flushes the last run, and returns
(pause_s, long_pause_count). -/
def pauseScan (minW longW : Nat) (s : ℚ) (ws : List Bool) : ℚ × Nat :=
  let r := (ws ++ [false]).foldl (scanStep minW longW s) (0, 0, 0)
  (r.1, r.2.1)

/-- `analyse_pauses_from_wav_bytes` of the source, over decoded mono
samples and the header sample rate.  The duration division of line 66
faults when the declared rate is zero, and the threshold divisions of
lines 91-92 fault when the window duration is zero; both faults are the
error side of the result.  Returns
(duration_s, pause_s, pause_pct, long_pause_count). -/
def analyse_pauses_from_wav_bytes (samples : List Int) (framerate : Nat)
    (window_ms silence_rms_threshold min_pause_ms long_pause_ms : Int) :
    Except PyError (ℚ × ℚ × ℚ × Nat) :=
  if framerate = 0 then .error .zeroDivision
  else
    let duration_s : ℚ := (samples.length : ℚ) / (framerate : ℚ)
    let silent := silentWindowsOf samples framerate window_ms silence_rms_threshold
    if window_ms = 0 then .error .zeroDivision
    else
      let window_s : ℚ := (window_ms : ℚ) / 1000
      let res := pauseScan (minWindowsOf min_pause_ms window_ms)
        (minWindowsOf long_pause_ms window_ms) window_s silent
      let pause_pct : ℚ := if duration_s > 0 then res.1 / duration_s * 100 else 0
      .ok (duration_s, res.1, pause_pct, res.2)

/-- Words-per-minute computation of the source (lines 143-144):
minutes is duration/60 when the duration is positive and 0 otherwise,
and the rate is words/minutes when minutes is positive and 0 otherwise. -/
def wpm (total_words : Nat) (duration_s : ℚ) : ℚ :=
  let minutes : ℚ := if duration_s > 0 then duration_s / 60 else 0
  if minutes > 0 then (total_words : ℚ) / minutes else 0

/-- Modelled from the spec: the RepetitionDetector (immediate-repetition
mode) is described in the spec but absent from src/ — the counter is
incremented for every index whose token equals the preceding token. -/
def immediateRepetitionCount : List String → Nat
  | a :: b :: rest => (if a = b then 1 else 0) + immediateRepetitionCount (b :: rest)
  | _ => 0

/-- Lengths of the maximal runs of silent windows, accumulating the run
currently being read; the trailing run is included. -/
def silentRunsAux : Nat → List Bool → List Nat
  | run, [] => if run = 0 then [] else [run]
  | run, true :: rest => silentRunsAux (run + 1) rest
  | run, false :: rest =>
    if run = 0 then silentRunsAux 0 rest else run :: silentRunsAux 0 rest

/-- Lengths of the maximal runs of silent windows of a classification. -/
def silentRuns (ws : List Bool) : List Nat := silentRunsAux 0 ws

/-- Pause seconds a single maximal silent run contributes: its length
times the window duration if it reaches the minimum-pause threshold,
otherwise nothing. -/
def contribP (minW : Nat) (s : ℚ) (r : Nat) : ℚ :=
  if minW ≤ r then (r : ℚ) * s else 0

/-- Long-pause count a single maximal silent run contributes: one if it
reaches both the minimum-pause and the long-pause thresholds. -/
def contribL (minW longW r : Nat) : Nat :=
  if minW ≤ r ∧ longW ≤ r then 1 else 0

/-- The number of qualifying pause segments of an analysis run: maximal
silent runs reaching the minimum-pause window threshold. -/
def reportedPauseCount (samples : List Int) (framerate : Nat)
    (window_ms thr min_pause_ms : Int) : Nat :=
  (silentRuns (silentWindowsOf samples framerate window_ms thr)).countP
    (fun r => minWindowsOf min_pause_ms window_ms ≤ r)

/-!  Characterisation of the pause-merging loop by the maximal silent runs. -/

theorem scan_go (minW longW : Nat) (s : ℚ) (hm : 1 ≤ minW) :
    ∀ (ws : List Bool) (p : ℚ) (l run : Nat),
    (ws ++ [false]).foldl (scanStep minW longW s) (p, l, run)
      = (p + ((silentRunsAux run ws).map (contribP minW s)).sum,
         l + ((silentRunsAux run ws).map (contribL minW longW)).sum, 0) := by
  intro ws
  induction ws with
  | nil =>
    intro p l run
    rcases Nat.eq_zero_or_pos run with hrun | hrun
    · subst hrun
      simp [scanStep, silentRunsAux, Nat.not_succ_le_zero, hm]
      omega
    · by_cases h1 : minW ≤ run
      · by_cases h2 : longW ≤ run <;>
          simp [scanStep, silentRunsAux, Nat.pos_iff_ne_zero.mp hrun, h1, h2,
            contribP, contribL]
      · have hcl : ¬ (minW ≤ run ∧ longW ≤ run) := fun hc => h1 hc.1
        simp [scanStep, silentRunsAux, Nat.pos_iff_ne_zero.mp hrun, h1, hcl,
          contribP, contribL]
  | cons b rest ih =>
    intro p l run
    cases b with
    | true =>
      simp only [List.cons_append, List.foldl_cons]
      have hstep : scanStep minW longW s (p, l, run) true = (p, l, run + 1) := by
        simp [scanStep]
      rw [hstep, ih]
      simp [silentRunsAux]
    | false =>
      simp only [List.cons_append, List.foldl_cons]
      rcases Nat.eq_zero_or_pos run with hrun | hrun
      · subst hrun
        have hstep : scanStep minW longW s (p, l, 0) false = (p, l, 0) := by
          simp [scanStep]
          omega
        rw [hstep, ih]
        simp [silentRunsAux]
      · by_cases h1 : minW ≤ run
        · by_cases h2 : longW ≤ run
          · have hstep : scanStep minW longW s (p, l, run) false
                = (p + (run : ℚ) * s, l + 1, 0) := by
              simp [scanStep, h1, h2]
            rw [hstep, ih]
            simp [silentRunsAux, Nat.pos_iff_ne_zero.mp hrun, contribP, contribL,
              h1, h2]
            exact ⟨by ring, by omega⟩
          · have hstep : scanStep minW longW s (p, l, run) false
                = (p + (run : ℚ) * s, l, 0) := by
              simp [scanStep, h1, h2]
            rw [hstep, ih]
            have : ¬ (minW ≤ run ∧ longW ≤ run) := fun hc => h2 hc.2
            simp [silentRunsAux, Nat.pos_iff_ne_zero.mp hrun, contribP, contribL,
              h1, this]
            exact ⟨by ring, by omega⟩
        · have hstep : scanStep minW longW s (p, l, run) false = (p, l, 0) := by
            simp [scanStep, h1]
          rw [hstep, ih]
          have : ¬ (minW ≤ run ∧ longW ≤ run) := fun hc => h1 hc.1
          simp [silentRunsAux, Nat.pos_iff_ne_zero.mp hrun, contribP, contribL,
            this, h1]

theorem pauseScan_eq (minW longW : Nat) (s : ℚ) (hm : 1 ≤ minW) (ws : List Bool) :
    pauseScan minW longW s ws
      = (((silentRuns ws).map (contribP minW s)).sum,
         ((silentRuns ws).map (contribL minW longW)).sum) := by
  have h := scan_go minW longW s hm ws 0 0 0
  simp only [pauseScan, silentRuns]
  rw [show ((0 : ℚ), (0 : Nat), (0 : Nat)) = ((0 : ℚ), (0 : Nat), (0 : Nat)) from rfl]
  rw [h]
  simp

theorem contribL_sum_eq_countP (minW longW : Nat) (rs : List Nat) :
    ((rs.map (contribL minW longW)).sum)
      = rs.countP (fun r => decide (max minW longW ≤ r)) := by
  induction rs with
  | nil => simp
  | cons r rest ih =>
    by_cases h : max minW longW ≤ r
    · have : minW ≤ r ∧ longW ≤ r := ⟨le_trans (le_max_left _ _) h,
        le_trans (le_max_right _ _) h⟩
      simp [contribL, this, h, List.countP_cons, ih]
      omega
    · have : ¬ (minW ≤ r ∧ longW ≤ r) := fun hc => h (max_le hc.1 hc.2)
      simp [contribL, this, h, List.countP_cons, ih]

theorem contribP_sum_eq_filter (minW : Nat) (s : ℚ) (rs : List Nat) :
    ((rs.map (contribP minW s)).sum)
      = (((rs.filter (fun r => decide (minW ≤ r))).map (fun r => (r : ℚ) * s)).sum) := by
  induction rs with
  | nil => simp
  | cons r rest ih =>
    by_cases h : minW ≤ r <;> simp [contribP, h, List.filter_cons, ih]

theorem contribP_sum_anti (minW1 minW2 : Nat) (s : ℚ) (hs : 0 ≤ s)
    (h : minW1 ≤ minW2) (rs : List Nat) :
    ((rs.map (contribP minW2 s)).sum) ≤ ((rs.map (contribP minW1 s)).sum) := by
  induction rs with
  | nil => simp
  | cons r rest ih =>
    simp only [List.map_cons, List.sum_cons]
    refine add_le_add ?_ ih
    unfold contribP
    by_cases h2 : minW2 ≤ r
    · rw [if_pos h2, if_pos (le_trans h h2)]
    · rw [if_neg h2]
      by_cases h1 : minW1 ≤ r
      · rw [if_pos h1]
        positivity
      · rw [if_neg h1]

theorem contribL_sum_anti (minW1 minW2 longW : Nat) (h : minW1 ≤ minW2)
    (rs : List Nat) :
    ((rs.map (contribL minW2 longW)).sum) ≤ ((rs.map (contribL minW1 longW)).sum) := by
  induction rs with
  | nil => simp
  | cons r rest ih =>
    simp only [List.map_cons, List.sum_cons]
    refine Nat.add_le_add ?_ ih
    unfold contribL
    by_cases h2 : minW2 ≤ r ∧ longW ≤ r
    · rw [if_pos h2, if_pos ⟨le_trans h h2.1, h2.2⟩]
    · rw [if_neg h2]
      omega

theorem countP_le_anti (minW1 minW2 : Nat) (h : minW1 ≤ minW2) (rs : List Nat) :
    rs.countP (fun r => decide (minW2 ≤ r)) ≤ rs.countP (fun r => decide (minW1 ≤ r)) := by
  induction rs with
  | nil => simp
  | cons r rest ih =>
    simp only [List.countP_cons]
    by_cases h2 : minW2 ≤ r
    · simp [h2, le_trans h h2]
      omega
    · by_cases h1 : minW1 ≤ r <;> simp [h1, h2] <;> omega

/-!  Arithmetic facts about the window-count parameters. -/

theorem tdiv_coe (a b : Nat) : Int.tdiv (a : Int) (b : Int) = ((a / b : Nat) : Int) := rfl

theorem minWindowsOf_coe (a b : Nat) : minWindowsOf (a : Int) (b : Int) = max 1 (a / b) := by
  rw [minWindowsOf, tdiv_coe]
  omega

theorem one_le_minWindowsOf (ms w : Int) : 1 ≤ minWindowsOf ms w := by
  rw [minWindowsOf]
  omega

theorem minWindowsOf_mono (m1 m2 w : Nat) (h : m1 ≤ m2) :
    minWindowsOf (m1 : Int) (w : Int) ≤ minWindowsOf (m2 : Int) (w : Int) := by
  rw [minWindowsOf_coe, minWindowsOf_coe]
  exact max_le_max (le_refl 1) (Nat.div_le_div_right h)

/-- When neither guarded division faults, the analysis succeeds and its
components are the duration, the pause seconds and long-pause count of
the merging loop, and the guarded pause percentage. -/
theorem analyse_ok (samples : List Int) (framerate : Nat)
    (window_ms thr m lp : Int) (hr : framerate ≠ 0) (hw : window_ms ≠ 0) :
    analyse_pauses_from_wav_bytes samples framerate window_ms thr m lp
      = .ok ((samples.length : ℚ) / (framerate : ℚ),
             (pauseScan (minWindowsOf m window_ms) (minWindowsOf lp window_ms)
               ((window_ms : ℚ) / 1000)
               (silentWindowsOf samples framerate window_ms thr)).1,
             (if ((samples.length : ℚ) / (framerate : ℚ)) > 0 then
               (pauseScan (minWindowsOf m window_ms) (minWindowsOf lp window_ms)
                 ((window_ms : ℚ) / 1000)
                 (silentWindowsOf samples framerate window_ms thr)).1
                 / ((samples.length : ℚ) / (framerate : ℚ)) * 100
              else 0),
             (pauseScan (minWindowsOf m window_ms) (minWindowsOf lp window_ms)
               ((window_ms : ℚ) / 1000)
               (silentWindowsOf samples framerate window_ms thr)).2) := by
  simp [analyse_pauses_from_wav_bytes, hr, hw]

/-- C4: the computed words-per-minute is `n / (d / 60)` for a positive
duration `d`, is the designated value 0 at `d = 0`, and evaluates to 12
for 12 words over 60 seconds. -/
theorem C4_wpm (n : Nat) (d : ℚ) :
    (0 < d → wpm n d = (n : ℚ) / (d / 60))
      ∧ (d = 0 → wpm n d = 0)
      ∧ wpm 12 60 = 12 := by
  refine ⟨?_, ?_, ?_⟩
  · intro hd
    have hm : (0 : ℚ) < d / 60 := by positivity
    simp [wpm, hd, hm]
  · intro hd
    subst hd
    norm_num [wpm]
  · norm_num [wpm]

theorem C4_wpm_witness :
    (0 < (60 : ℚ) ∧ wpm 12 60 = (12 : ℚ) / (60 / 60)) ∧ wpm 12 60 = 12 :=
  ⟨⟨by norm_num, (C4_wpm 12 60).1 (by norm_num)⟩, (C4_wpm 12 60).2.2⟩

/-- C5: with the audio and all other parameters fixed, raising the
minimum-pause duration from m1 to m2 never increases the reported total
pause seconds, never increases the reported long-pause count, and never
increases the number of qualifying pause segments. -/
theorem C5_monotone (samples : List Int) (framerate : Nat) (thr : Int)
    (w m1 m2 lp : Nat) (hw : 0 < w) (hm : m1 ≤ m2)
    (d1 p1 c1 : ℚ) (l1 : Nat) (d2 p2 c2 : ℚ) (l2 : Nat)
    (h1 : analyse_pauses_from_wav_bytes samples framerate (w : Int) thr (m1 : Int) (lp : Int)
            = .ok (d1, p1, c1, l1))
    (h2 : analyse_pauses_from_wav_bytes samples framerate (w : Int) thr (m2 : Int) (lp : Int)
            = .ok (d2, p2, c2, l2)) :
    p2 ≤ p1 ∧ l2 ≤ l1
      ∧ reportedPauseCount samples framerate (w : Int) thr (m2 : Int)
          ≤ reportedPauseCount samples framerate (w : Int) thr (m1 : Int) := by
  have hr : framerate ≠ 0 := by
    intro h0
    rw [h0, analyse_pauses_from_wav_bytes] at h1
    simp at h1
  have hwz : (w : Int) ≠ 0 := by
    exact_mod_cast Nat.pos_iff_ne_zero.mp hw
  rw [analyse_ok samples framerate (w : Int) thr (m1 : Int) (lp : Int) hr hwz] at h1
  rw [analyse_ok samples framerate (w : Int) thr (m2 : Int) (lp : Int) hr hwz] at h2
  simp only [Except.ok.injEq, Prod.mk.injEq] at h1 h2
  obtain ⟨-, hp1, -, hl1⟩ := h1
  obtain ⟨-, hp2, -, hl2⟩ := h2
  set ws := silentWindowsOf samples framerate (w : Int) thr with hws
  have hs : (0 : ℚ) ≤ (((w : Int) : ℚ)) / 1000 := by
    have h0 : ((0 : Int) : ℚ) ≤ ((w : Int) : ℚ) := by
      exact_mod_cast Int.ofNat_nonneg w
    simp only [Int.cast_zero] at h0
    positivity
  have e1 := pauseScan_eq (minWindowsOf (m1 : Int) (w : Int)) (minWindowsOf (lp : Int) (w : Int))
    (((w : Int) : ℚ) / 1000) (one_le_minWindowsOf _ _) ws
  have e2 := pauseScan_eq (minWindowsOf (m2 : Int) (w : Int)) (minWindowsOf (lp : Int) (w : Int))
    (((w : Int) : ℚ) / 1000) (one_le_minWindowsOf _ _) ws
  have hmono := minWindowsOf_mono m1 m2 w hm
  refine ⟨?_, ?_, ?_⟩
  · rw [← hp1, ← hp2, e1, e2]
    exact contribP_sum_anti _ _ _ hs hmono _
  · rw [← hl1, ← hl2, e1, e2]
    exact contribL_sum_anti _ _ _ hmono _
  · unfold reportedPauseCount
    exact countP_le_anti _ _ hmono _

theorem silentRuns_nil : silentRuns [] = [] := by
  simp [silentRuns, silentRunsAux]

theorem pauseScan_nil (minW longW : Nat) (s : ℚ) (hm : 1 ≤ minW) :
    pauseScan minW longW s [] = (0, 0) := by
  rw [pauseScan_eq minW longW s hm, silentRuns_nil]
  simp

theorem C5_monotone_witness :
    (0 : ℚ) ≤ 0 ∧ (0 : Nat) ≤ 0
      ∧ reportedPauseCount [] 1 ((20 : Nat) : Int) 200 (((200 : Nat)) : Int)
          ≤ reportedPauseCount [] 1 ((20 : Nat) : Int) 200 (((100 : Nat)) : Int) :=
  C5_monotone [] 1 200 20 100 200 2000 (by norm_num) (by norm_num)
    0 0 0 0 0 0 0 0
    (by
      rw [analyse_ok _ _ _ _ _ _ (by norm_num) (by decide)]
      rw [show silentWindowsOf [] 1 ((20 : Nat) : Int) 200 = [] from by
        simp [silentWindowsOf, chunks, chunksGo]]
      rw [pauseScan_nil _ _ _ (one_le_minWindowsOf _ _)]
      norm_num)
    (by
      rw [analyse_ok _ _ _ _ _ _ (by norm_num) (by decide)]
      rw [show silentWindowsOf [] 1 ((20 : Nat) : Int) 200 = [] from by
        simp [silentWindowsOf, chunks, chunksGo]]
      rw [pauseScan_nil _ _ _ (one_le_minWindowsOf _ _)]
      norm_num)

/-!  Structure of the maximal silent runs under appending. -/

theorem silentRunsAux_append_false (ws : List Bool) :
    ∀ run, silentRunsAux run (ws ++ [false]) = silentRunsAux run ws := by
  induction ws with
  | nil =>
    intro run
    rcases Nat.eq_zero_or_pos run with h | h
    · simp [h, silentRunsAux]
    · simp [silentRunsAux, Nat.pos_iff_ne_zero.mp h]
  | cons b rest ih =>
    intro run
    cases b with
    | true => simp [silentRunsAux, ih]
    | false =>
      rcases Nat.eq_zero_or_pos run with h | h
      · simp [h, silentRunsAux, ih]
      · simp [silentRunsAux, Nat.pos_iff_ne_zero.mp h, ih]

theorem silentRunsAux_append_cons (xs ys : List Bool) :
    ∀ run, silentRunsAux run (xs ++ false :: ys)
      = silentRunsAux run (xs ++ [false]) ++ silentRunsAux 0 ys := by
  induction xs with
  | nil =>
    intro run
    rcases Nat.eq_zero_or_pos run with h | h
    · simp [h, silentRunsAux]
    · simp [silentRunsAux, Nat.pos_iff_ne_zero.mp h]
  | cons b rest ih =>
    intro run
    cases b with
    | true => simp [silentRunsAux, ih]
    | false =>
      rcases Nat.eq_zero_or_pos run with h | h
      · simp [h, silentRunsAux, ih]
      · simp [silentRunsAux, Nat.pos_iff_ne_zero.mp h, ih]

theorem silentRunsAux_replicate_true (k : Nat) :
    ∀ run, silentRunsAux run (List.replicate k true)
      = if run + k = 0 then [] else [run + k] := by
  induction k with
  | zero =>
    intro run
    rcases Nat.eq_zero_or_pos run with h | h
    · simp [h, silentRunsAux]
    · simp [silentRunsAux, Nat.pos_iff_ne_zero.mp h]
  | succ n ih =>
    intro run
    rw [List.replicate_succ]
    rw [show silentRunsAux run (true :: List.replicate n true)
        = silentRunsAux (run + 1) (List.replicate n true) from rfl]
    rw [ih (run + 1)]
    have h1 : run + 1 + n ≠ 0 := by omega
    have h2 : run + (n + 1) ≠ 0 := by omega
    simp [h1, h2]
    omega

/-- C6: a maximal silent run that reaches the end of the window sequence
is flushed and evaluated against the thresholds exactly as an interior
run: appending a trailing silent run of k windows adds its qualifying
pause seconds and long-pause contribution, and explicitly closing that
run with a voiced window changes nothing. -/
theorem C6_final_run (minW longW : Nat) (s : ℚ) (ws : List Bool) (k : Nat)
    (hm : 1 ≤ minW) :
    pauseScan minW longW s (ws ++ [false] ++ List.replicate k true)
      = ((pauseScan minW longW s (ws ++ [false])).1
           + (if minW ≤ k then (k : ℚ) * s else 0),
         (pauseScan minW longW s (ws ++ [false])).2
           + (if minW ≤ k ∧ longW ≤ k then 1 else 0))
    ∧ pauseScan minW longW s (ws ++ [false] ++ List.replicate k true ++ [false])
      = pauseScan minW longW s (ws ++ [false] ++ List.replicate k true) := by
  have hruns : silentRuns (ws ++ [false] ++ List.replicate k true)
      = silentRuns (ws ++ [false]) ++ (if k = 0 then [] else [k]) := by
    unfold silentRuns
    rw [List.append_assoc, List.singleton_append,
      silentRunsAux_append_cons ws (List.replicate k true) 0,
      silentRunsAux_replicate_true k 0]
    simp
  constructor
  · rw [pauseScan_eq minW longW s hm, pauseScan_eq minW longW s hm, hruns]
    rcases Nat.eq_zero_or_pos k with hk | hk
    · subst hk
      have : ¬ minW ≤ 0 := by omega
      simp [this]
    · rw [if_neg (Nat.pos_iff_ne_zero.mp hk)]
      simp only [List.map_append, List.sum_append, List.map_cons, List.map_nil,
        List.sum_cons, List.sum_nil, Prod.mk.injEq]
      constructor
      · simp [contribP]
      · simp [contribL]
  · rw [pauseScan_eq minW longW s hm, pauseScan_eq minW longW s hm]
    unfold silentRuns
    rw [silentRunsAux_append_false]

theorem C6_final_run_witness :
    (1 ≤ 1)
      ∧ (pauseScan 1 1 1 ([false] ++ [false] ++ List.replicate 1 true)
          = ((pauseScan 1 1 1 ([false] ++ [false])).1
               + (if 1 ≤ 1 then ((1 : Nat) : ℚ) * 1 else 0),
             (pauseScan 1 1 1 ([false] ++ [false])).2
               + (if 1 ≤ 1 ∧ 1 ≤ 1 then 1 else 0))
        ∧ pauseScan 1 1 1 ([false] ++ [false] ++ List.replicate 1 true ++ [false])
          = pauseScan 1 1 1 ([false] ++ [false] ++ List.replicate 1 true)) :=
  ⟨le_refl 1, C6_final_run 1 1 1 [false] 1 (le_refl 1)⟩

/-- C10: the long-pause counter counts exactly the maximal silent runs
reaching both thresholds, i.e. of length at least max(minW, longW), and
the pause seconds accumulate exactly the runs reaching the minimum-pause
threshold — so a run between a larger minimum-pause threshold and a
smaller long-pause threshold contributes to neither. -/
theorem C10_long_pause (minW longW : Nat) (s : ℚ) (ws : List Bool)
    (hm : 1 ≤ minW) :
    (pauseScan minW longW s ws).2
        = (silentRuns ws).countP (fun r => decide (max minW longW ≤ r))
      ∧ (pauseScan minW longW s ws).1
        = (((silentRuns ws).filter (fun r => decide (minW ≤ r))).map
            (fun r => (r : ℚ) * s)).sum := by
  rw [pauseScan_eq minW longW s hm]
  exact ⟨contribL_sum_eq_countP minW longW (silentRuns ws),
    contribP_sum_eq_filter minW s (silentRuns ws)⟩

theorem C10_long_pause_witness :
    (1 ≤ 2)
      ∧ ((pauseScan 2 1 1 [true, true, false, true]).2
          = (silentRuns [true, true, false, true]).countP (fun r => decide (max 2 1 ≤ r))
        ∧ (pauseScan 2 1 1 [true, true, false, true]).1
          = (((silentRuns [true, true, false, true]).filter (fun r => decide (2 ≤ r))).map
              (fun r => (r : ℚ) * 1)).sum) :=
  ⟨by norm_num, C10_long_pause 2 1 1 [true, true, false, true] (by norm_num)⟩

/-- C2: on a WAV whose header declares a sample rate of zero the source
divides `nframes / float(framerate)` unguarded (line 66), so the run
raises a ZeroDivisionError instead of returning durationSeconds = 0:
every zero-rate input faults, as does the concrete one-frame input. -/
theorem C2_zero_rate_fault :
    (∀ (samples : List Int) (w thr m lp : Int),
      analyse_pauses_from_wav_bytes samples 0 w thr m lp
        = .error PyError.zeroDivision)
    ∧ analyse_pauses_from_wav_bytes [0] 0 20 200 200 2000
        = .error PyError.zeroDivision :=
  ⟨fun _ _ _ _ _ => rfl, rfl⟩

/-- C3 counterexample: a zero window duration is not rejected with a
typed configuration error before computation — the run reaches the
min-pause window division (line 91) and raises an untyped
ZeroDivisionError. -/
theorem C3_counterexample :
    analyse_pauses_from_wav_bytes [0] 8000 0 200 200 2000
      = .error PyError.zeroDivision := rfl

/-- C3 amended: no fail-fast typed configuration check exists: a zero
window duration raises the untyped division fault only when the
min-pause window count is computed, after the windows have been read,
and a negative window duration is not rejected at all — the analysis
proceeds (with the frames-per-window clamped to 1) and returns a
result. -/
theorem C3_amended (samples : List Int) (framerate : Nat) (thr m lp w : Int)
    (hr : framerate ≠ 0) :
    (w = 0 → analyse_pauses_from_wav_bytes samples framerate w thr m lp
        = .error PyError.zeroDivision)
    ∧ (w ≠ 0 → ∃ out, analyse_pauses_from_wav_bytes samples framerate w thr m lp
        = .ok out) := by
  constructor
  · intro h0
    subst h0
    simp [analyse_pauses_from_wav_bytes, hr]
  · intro hw
    exact ⟨_, analyse_ok samples framerate w thr m lp hr hw⟩

theorem C3_amended_witness :
    analyse_pauses_from_wav_bytes [0] 8000 (0 : Int) 200 200 2000
        = .error PyError.zeroDivision
      ∧ ∃ out, analyse_pauses_from_wav_bytes [0] 8000 (-20 : Int) 200 200 2000
        = .ok out :=
  ⟨(C3_amended [0] 8000 200 200 2000 0 (by norm_num)).1 rfl,
   (C3_amended [0] 8000 200 200 2000 (-20) (by norm_num)).2 (by norm_num)⟩

/-- C9: the immediate-repetition counter is incremented at every index
whose token equals the preceding token, and yields 3 on the example
token sequence (one adjacent pair in the first run, two in the second). -/
theorem C9_immediate_repetition :
    immediateRepetitionCount ["because", "because", "is", "is", "is"] = 3
      ∧ ∀ (a b : String) (l : List String),
        immediateRepetitionCount (a :: b :: l)
          = (if a = b then 1 else 0) + immediateRepetitionCount (b :: l) :=
  ⟨by decide, fun a b l => rfl⟩

/-- The boundary-correctness example text of the specification. -/
def boundaryExampleText : String := "you knowledge of sort ofthe plan"

/-- The phrase "you know" of the filler phrase list. -/
def youKnowPhrase : String := "you know"

/-- The phrase "sort of" of the filler phrase list. -/
def sortOfPhrase : String := "sort of"

/-- C7: phrase matching is word-boundary anchored: on the text
"you knowledge of sort ofthe plan" neither "you know" nor "sort of" is
counted (no substring false positive), and the whole filler count of the
text is zero. -/
theorem C7_phrase_boundaries :
    countPhrase youKnowPhrase.data none
        (boundaryExampleText.data.map Char.toLower) = 0
      ∧ countPhrase sortOfPhrase.data none
        (boundaryExampleText.data.map Char.toLower) = 0
      ∧ (count_fillers boundaryExampleText).2.1 = 0 := by
  refine ⟨by decide, by decide, ?_⟩
  decide

/-!  The filler word-equivalent score (claim C1). -/

theorem Char_toLower_idem (c : Char) : c.toLower.toLower = c.toLower := by
  by_cases h : c.toNat ≥ 65 ∧ c.toNat ≤ 90
  · have hval : Nat.isValidChar (c.toNat + 32) := by
      left
      omega
    have htn : (Char.ofNat (c.toNat + 32)).toNat = c.toNat + 32 := by
      unfold Char.ofNat
      rw [dif_pos hval]
      rfl
    have h1 : c.toLower = Char.ofNat (c.toNat + 32) := by
      unfold Char.toLower
      exact if_pos h
    rw [h1]
    unfold Char.toLower
    rw [htn]
    apply if_neg
    omega
  · have h1 : c.toLower = c := by
      unfold Char.toLower
      exact if_neg h
    rw [h1, h1]

/-- Lowercasing inside `tokenise_words` is idempotent, so the word list
of `count_fillers` (tokenised from the already-lowercased text) is the
word list of `tokenise_words` on the original text. -/
theorem tokenise_of_lowered (text : String) :
    tokeniseChars [] ((text.data.map Char.toLower).map Char.toLower)
      = tokenise_words text := by
  rw [tokenise_words, List.map_map]
  have hcomp : Char.toLower ∘ Char.toLower = Char.toLower :=
    funext Char_toLower_idem
  rw [hcomp]

/-- The reported percentage is the reported filler count over the
reported word count, times 100, with the zero-token guard. -/
theorem count_fillers_pct (text : String) :
    (count_fillers text).2.2
      = (if (count_fillers text).1 ≠ 0
         then ((count_fillers text).2.1 : ℚ) / ((count_fillers text).1 : ℚ) * 100
         else 0) := rfl

/-- The end-to-end example transcript of the specification. -/
def exampleTranscript : String :=
  "um so basically I think you know this is this is correct"

/-- C1 counterexample: on the example transcript the filler score of
`count_fillers` is 3 — each "you know" occurrence adds 1, not its word
count 2 — so the score is not 4 and the percentage is 25, not
4/12 x 100. -/
theorem C1_counterexample :
    (count_fillers exampleTranscript).1 = 12
      ∧ (count_fillers exampleTranscript).2.1 = 3
      ∧ (count_fillers exampleTranscript).2.1 ≠ 4
      ∧ (count_fillers exampleTranscript).2.2 ≠ 4 / 12 * 100 := by
  have h1 : (count_fillers exampleTranscript).1 = 12 := by decide
  have h2 : (count_fillers exampleTranscript).2.1 = 3 := by decide
  refine ⟨h1, h2, by rw [h2]; norm_num, ?_⟩
  rw [count_fillers_pct, h1, h2]
  norm_num

/-- C1 amended: the filler score equals the single-word token hits plus
the plain occurrence count of each filler phrase (each phrase occurrence
contributes 1, not its word length); on the example transcript the score
is 3 and the filler percent is 25. -/
theorem C1_amended :
    (∀ text : String,
      (count_fillers text).2.1
        = (tokenise_words text).countP (fun w => FILLER_WORDS.contains w)
          + (FILLER_PHRASES.map
              (fun p => countPhrase p.data none (text.data.map Char.toLower))).sum)
    ∧ (count_fillers exampleTranscript).1 = 12
    ∧ (count_fillers exampleTranscript).2.1 = 3
    ∧ (count_fillers exampleTranscript).2.2 = 25 := by
  refine ⟨?_, by decide, by decide, ?_⟩
  · intro text
    show (tokeniseChars [] ((text.data.map Char.toLower).map Char.toLower)).countP
        (fun w => FILLER_WORDS.contains w)
        + (FILLER_PHRASES.map
            (fun p => countPhrase p.data none (text.data.map Char.toLower))).sum
      = _
    rw [tokenise_of_lowered]
  · rw [count_fillers_pct]
    have h1 : (count_fillers exampleTranscript).1 = 12 := by decide
    have h2 : (count_fillers exampleTranscript).2.1 = 3 := by decide
    rw [h1, h2]
    norm_num

/-!  Window counts and fully silent audio (claim C8). -/

theorem chunksGo_length (k : Nat) :
    ∀ (fuel : Nat) (xs : List Int), xs.length < fuel →
      (chunksGo fuel k xs).length = (xs.length + max 1 k - 1) / max 1 k := by
  intro fuel
  induction fuel with
  | zero =>
    intro xs h
    omega
  | succ f ih =>
    intro xs h
    by_cases hxs : xs = []
    · subst hxs
      simp only [chunksGo, if_pos rfl, List.length_nil]
      exact (Nat.div_eq_of_lt (by omega)).symm
    · have hlen : 0 < xs.length := List.length_pos.mpr hxs
      have hk1 : 0 < max 1 k := by omega
      rw [chunksGo, if_neg hxs]
      simp only [List.length_cons]
      rw [ih (xs.drop (max 1 k)) (by simp [List.length_drop]; omega)]
      simp only [List.length_drop]
      rcases le_or_lt xs.length (max 1 k) with hc | hc
      · have h0 : xs.length - max 1 k = 0 := by omega
        rw [h0]
        rw [Nat.div_eq_of_lt (by omega)]
        have : (xs.length + max 1 k - 1) / max 1 k = 1 := by
          apply Nat.div_eq_of_lt_le
          · omega
          · omega
        omega
      · have h1 : xs.length - max 1 k + max 1 k - 1 = xs.length - 1 := by omega
        have h2 : xs.length + max 1 k - 1 = xs.length - 1 + max 1 k := by omega
        rw [h1, h2, Nat.add_div_right _ hk1]

theorem chunks_length (k : Nat) (xs : List Int) :
    (chunks k xs).length = (xs.length + max 1 k - 1) / max 1 k :=
  chunksGo_length k (xs.length + 1) xs (Nat.lt_succ_self _)

theorem mem_of_mem_chunksGo (k : Nat) :
    ∀ (fuel : Nat) (xs win : List Int), win ∈ chunksGo fuel k xs →
      ∀ a ∈ win, a ∈ xs := by
  intro fuel
  induction fuel with
  | zero =>
    intro xs win h
    simp [chunksGo] at h
  | succ f ih =>
    intro xs win h a ha
    by_cases hxs : xs = []
    · subst hxs
      simp [chunksGo] at h
    · rw [chunksGo, if_neg hxs] at h
      rcases List.mem_cons.mp h with h1 | h1
      · subst h1
        exact List.take_subset _ _ ha
      · exact List.drop_subset _ _ (ih (xs.drop (max 1 k)) win h1 a ha)

theorem rms_of_zeros (win : List Int) (h : ∀ a ∈ win, a = 0) : rms win = 0 := by
  have hsum : (win.map (fun x => (x * x).toNat)).sum = 0 := by
    apply List.sum_eq_zero
    intro x hx
    rcases List.mem_map.mp hx with ⟨a, ha, rfl⟩
    rw [h a ha]
    rfl
  rw [rms, hsum, Nat.zero_div, Nat.sqrt_zero]

theorem silentWindowsOf_zeros (n framerate : Nat) (window_ms thr : Int)
    (hthr : 0 < thr) :
    silentWindowsOf (List.replicate n 0) framerate window_ms thr
      = List.replicate
          (chunks (framesPerWindow framerate window_ms) (List.replicate n 0)).length
          true := by
  rw [silentWindowsOf]
  apply List.eq_replicate_iff.mpr
  constructor
  · simp
  · intro b hb
    rcases List.mem_map.mp hb with ⟨win, hwin, rfl⟩
    have hz : ∀ a ∈ win, a = (0 : Int) := by
      intro a ha
      have := mem_of_mem_chunksGo _ _ _ _ hwin a ha
      exact List.eq_of_mem_replicate this
    rw [rms_of_zeros win hz]
    simpa using hthr

theorem silentRuns_replicate_true (T : Nat) :
    silentRuns (List.replicate T true) = if T = 0 then [] else [T] := by
  rw [silentRuns, silentRunsAux_replicate_true T 0]
  simp

theorem ceil_mul_bounds (n k : Nat) (hk : 0 < k) :
    n ≤ k * ((n + k - 1) / k) ∧ k * ((n + k - 1) / k) < n + k := by
  have hdm := Nat.div_add_mod (n + k - 1) k
  have hmod := Nat.mod_lt (n + k - 1) hk
  omega

theorem framesPerWindow_exact (r w : Nat) (hr : 0 < r) (hw : 0 < w)
    (hdvd : 1000 ∣ r * w) :
    framesPerWindow r (w : Int) = r * w / 1000
      ∧ (framesPerWindow r (w : Int)) * 1000 = r * w
      ∧ 0 < framesPerWindow r (w : Int) := by
  have hcoe : (r : Int) * ((w : Nat) : Int) = ((r * w : Nat) : Int) := by
    push_cast
    ring
  have h1 : framesPerWindow r (w : Int) = max 1 (r * w / 1000) := by
    rw [framesPerWindow, hcoe]
    rw [show Int.tdiv ((r * w : Nat) : Int) 1000 = ((r * w / 1000 : Nat) : Int) from rfl]
    omega
  have hpos : 0 < r * w := Nat.mul_pos hr hw
  have hq : 0 < r * w / 1000 := by
    rcases hdvd with ⟨t, ht⟩
    have ht1 : 0 < t := by
      by_contra h0
      omega
    rw [ht, Nat.mul_div_cancel_left t (by norm_num)]
    exact ht1
  have h2 : framesPerWindow r (w : Int) = r * w / 1000 := by
    rw [h1]
    omega
  refine ⟨h2, ?_, by omega⟩
  rw [h2]
  exact Nat.div_mul_cancel hdvd

/-- C8 counterexample: 0.1 seconds of fully silent audio (10 zero frames
at 100 Hz, 20 ms windows — five silent windows) under the default 200 ms
minimum pause: the single silent run of five windows is below the
min-pause threshold, so the reported pause time is 0, which is not
within one window-duration (0.02 s) of the audio length 0.1 s. -/
theorem C8_counterexample :
    analyse_pauses_from_wav_bytes (List.replicate 10 0) 100 ((20 : Nat) : Int)
        ((200 : Nat) : Int) ((200 : Nat) : Int) ((2000 : Nat) : Int)
      = .ok (1/10, 0, 0, 0)
    ∧ ¬ (|(0 : ℚ) - 1/10| ≤ ((20 : Nat) : ℚ) / 1000) := by
  constructor
  · rw [analyse_ok _ _ _ _ _ _ (by norm_num) (by decide)]
    rw [show silentWindowsOf (List.replicate 10 0) 100 ((20 : Nat) : Int)
        ((200 : Nat) : Int) = List.replicate 5 true from by decide]
    rw [show minWindowsOf ((200 : Nat) : Int) ((20 : Nat) : Int) = 10 from by decide]
    rw [show minWindowsOf ((2000 : Nat) : Int) ((20 : Nat) : Int) = 100 from by decide]
    rw [pauseScan_eq 10 100 _ (by norm_num), silentRuns_replicate_true]
    norm_num [contribP, contribL]
  · have habs : |(0 : ℚ) - 1/10| = 1/10 := by
      rw [zero_sub, abs_neg, abs_of_nonneg (by norm_num)]
    rw [habs]
    norm_num

/-- C8 amended: when the window duration divides the sampling evenly
(1000 divides framerate x window_ms, so every window holds exactly
frames-per-window frames) and the silent window count reaches the
minimum-pause threshold, the reported pause time on fully silent audio
is within one window-duration of the reported audio duration. -/
theorem C8_amended (n r w thr m lp : Nat) (hr : 0 < r) (hw : 0 < w)
    (hthr : 0 < thr) (hdvd : 1000 ∣ r * w)
    (hq : minWindowsOf (m : Int) (w : Int)
            ≤ (chunks (framesPerWindow r ((w : Nat) : Int)) (List.replicate n 0)).length)
    (d p c : ℚ) (lc : Nat)
    (hok : analyse_pauses_from_wav_bytes (List.replicate n 0) r ((w : Nat) : Int)
             ((thr : Nat) : Int) ((m : Nat) : Int) ((lp : Nat) : Int) = .ok (d, p, c, lc)) :
    |p - d| ≤ (((w : Nat) : Int) : ℚ) / 1000 := by
  obtain ⟨hfe, hf1000, hfpos⟩ := framesPerWindow_exact r w hr hw hdvd
  have hrz : r ≠ 0 := Nat.pos_iff_ne_zero.mp hr
  have hwz : ((w : Nat) : Int) ≠ 0 := by exact_mod_cast Nat.pos_iff_ne_zero.mp hw
  have hthrz : (0 : Int) < ((thr : Nat) : Int) := by exact_mod_cast hthr
  rw [analyse_ok _ _ _ _ _ _ hrz hwz] at hok
  rw [silentWindowsOf_zeros n r ((w : Nat) : Int) ((thr : Nat) : Int) hthrz] at hok
  rw [pauseScan_eq _ _ _ (one_le_minWindowsOf _ _), silentRuns_replicate_true] at hok
  set fpw := framesPerWindow r ((w : Nat) : Int) with hfpw
  set T := (chunks fpw (List.replicate n (0 : Int))).length with hTdef
  have hminW := one_le_minWindowsOf ((m : Nat) : Int) ((w : Nat) : Int)
  have hTpos : T ≠ 0 := by omega
  rw [if_neg hTpos] at hok
  simp only [List.map_cons, List.map_nil, List.sum_cons, List.sum_nil,
    contribP, contribL, if_pos hq, List.length_replicate] at hok
  simp only [Except.ok.injEq, Prod.mk.injEq] at hok
  obtain ⟨hd, hp, -, -⟩ := hok
  have hT_eq : T = (n + fpw - 1) / fpw := by
    rw [hTdef, chunks_length]
    rw [max_eq_right (by omega)]
    simp
  have hbounds := ceil_mul_bounds n fpw hfpos
  rw [← hT_eq] at hbounds
  have hb1 : (n : ℚ) ≤ (fpw : ℚ) * (T : ℚ) := by exact_mod_cast hbounds.1
  have hb2 : (fpw : ℚ) * (T : ℚ) < (n : ℚ) + (fpw : ℚ) := by exact_mod_cast hbounds.2
  have hrpos : (0 : ℚ) < (r : ℚ) := by exact_mod_cast hr
  have hwq : ((((w : Nat) : Int)) : ℚ) / 1000 = (fpw : ℚ) / (r : ℚ) := by
    rw [div_eq_div_iff (by norm_num : (1000 : ℚ) ≠ 0) (ne_of_gt hrpos)]
    push_cast
    have hc : (fpw : ℚ) * 1000 = (r : ℚ) * (w : ℚ) := by exact_mod_cast hf1000
    linarith
  have hp2 : p = (T : ℚ) * ((fpw : ℚ) / (r : ℚ)) := by
    rw [← hp, add_zero, hwq]
  have hd2 : d = (n : ℚ) / (r : ℚ) := hd.symm
  rw [hp2, hd2, hwq]
  rw [← mul_div_assoc, div_sub_div_same, mul_comm (T : ℚ) (fpw : ℚ)]
  rw [abs_of_nonneg (by
    apply div_nonneg _ (le_of_lt hrpos)
    linarith)]
  exact (div_le_div_iff_of_pos_right hrpos).mpr (by linarith)

theorem C8_amended_witness :
    |(1/10 : ℚ) - 1/10| ≤ (((20 : Nat) : Int) : ℚ) / 1000 :=
  C8_amended 10 100 20 200 40 2000 (by norm_num) (by norm_num) (by norm_num)
    (by norm_num) (by decide) (1/10) (1/10) 100 0
    (by
      rw [analyse_ok _ _ _ _ _ _ (by norm_num) (by decide)]
      rw [show silentWindowsOf (List.replicate 10 0) 100 ((20 : Nat) : Int)
          ((200 : Nat) : Int) = List.replicate 5 true from by decide]
      rw [show minWindowsOf ((40 : Nat) : Int) ((20 : Nat) : Int) = 2 from by decide]
      rw [show minWindowsOf ((2000 : Nat) : Int) ((20 : Nat) : Int) = 100 from by decide]
      rw [pauseScan_eq 2 100 _ (by norm_num), silentRuns_replicate_true]
      norm_num [contribP, contribL])

end SpeechMetrics
